import Mathlib

/-!
The header jsoncpp_utils.h: type-directed coercion between JSON values and typed fields

A shallow embedding of `jsoncpp_utils.h`.  The header is written against two external
libraries, jsoncpp (`Json::Value`) and the C/C++ standard library (`snprintf`, `std::stod`,
`std::to_string`, `static_cast`).  Their behaviour is modelled in the first sections
(jsoncpp 1.9.x built with exceptions, glibc/libstdc++ on an LP64 target with IEEE-754
doubles); the functions of the header itself follow, each translated branch by branch.

A C++ computation that throws, or that has undefined behaviour, is an `Except.error`.
-/

namespace jsoncpp_utils

/-! ## Failures -/

/-- How a call can fail to complete normally. -/
inductive Failure where
  /-- A `Json::LogicError` thrown by a failed `JSON_ASSERT` inside jsoncpp. -/
  | logicError
  /-- A conversion whose result the C++ standard leaves undefined (value out of range). -/
  | undefinedConversion
  /-- A read of `buf[i]` with `i` at or beyond the 64 bytes of the buffer. -/
  | outOfBounds
  deriving DecidableEq, Repr

/-! ## IEEE-754 values -/

/-- A floating-point datum: `fin neg m e` denotes `(-1)^neg * m * 2^e`.  Every finite
binary64 value is of this form; the operations below are exact on the denoted value, so
they do not depend on the representative chosen. -/
inductive Double where
  | fin (neg : Bool) (m : Nat) (e : Int)
  | inf (neg : Bool)
  | nan (neg : Bool)
  deriving DecidableEq, Repr

/-- Parameters of a binary floating-point format: significand bits, exponent of the least
significant bit of the smallest subnormal, and of the largest finite binade. -/
structure FloatFormat where
  prec : Nat
  emin : Int
  emax : Int
  deriving DecidableEq, Repr

/-- The `double` format. -/
def binary64 : FloatFormat := ⟨53, -1074, 971⟩

/-- The `float` format. -/
def binary32 : FloatFormat := ⟨24, -149, 104⟩

/-- Attach a sign to a magnitude. -/
def signed (neg : Bool) (n : Nat) : Int := if neg then -(n : Int) else (n : Int)

/-- The quotient `a / b` rounded to the nearest integer, ties to even. -/
def roundHalfEven (a b : Nat) : Nat :=
  let q := a / b
  let r := a % b
  if 2 * r < b then q else if b < 2 * r then q + 1 else if q % 2 = 0 then q else q + 1

/-- Number of binary digits of `n`, by halving at most `fuel` times. -/
def bitLenAux : Nat → Nat → Nat
  | 0, _ => 0
  | fuel + 1, n => if n = 0 then 0 else bitLenAux fuel (n / 2) + 1

/-- Number of binary digits of `n` (`0` for `0`). -/
def bitLen (n : Nat) : Nat := bitLenAux n n

/-- The integer `floor (log2 (num / den))` for positive `num` and `den`. -/
def floorLog2 (num den : Nat) : Int :=
  let k : Int := (bitLen num : Int) - (bitLen den : Int)
  if (if 0 ≤ k then den * 2 ^ k.toNat ≤ num else den ≤ num * 2 ^ (-k).toNat) then k else k - 1

/-- Outcome of rounding a positive rational to a format. -/
inductive Rounded where
  | overflow
  | value (m : Nat) (e : Int) (inexact : Bool)
  deriving DecidableEq, Repr

/-- Round the rational `num / den` (`den > 0`) to the nearest value of the format, ties to
even, with gradual underflow.  A zero result is `value 0 0 _`. -/
def roundTo (f : FloatFormat) (num den : Nat) : Rounded :=
  if num = 0 then .value 0 0 false
  else
    let e := max (floorLog2 num den - ((f.prec : Int) - 1)) f.emin
    let a := if 0 ≤ e then num else num * 2 ^ (-e).toNat
    let b := if 0 ≤ e then den * 2 ^ e.toNat else den
    let m := roundHalfEven a b
    let inexact := decide (m * b ≠ a)
    if m = 0 then .value 0 0 inexact
    else if m = 2 ^ f.prec then
      (if f.emax < e + 1 then .overflow else .value (2 ^ (f.prec - 1)) (e + 1) inexact)
    else if f.emax < e then .overflow
    else .value m e inexact

/-- Conversion `static_cast<double>(n)` of a non-negative integer (round to nearest). -/
def Double.ofNat (neg : Bool) (n : Nat) : Double :=
  match roundTo binary64 n 1 with
  | .value m e _ => .fin neg m e
  | .overflow => .inf neg

/-- Conversion `static_cast<double>(i)` of a signed integer. -/
def Double.ofInt (i : Int) : Double := Double.ofNat (decide (i < 0)) i.natAbs

/-- Magnitude `m * 2^e` truncated toward zero. -/
def truncMag (m : Nat) (e : Int) : Nat :=
  if 0 ≤ e then m * 2 ^ e.toNat else m / 2 ^ (-e).toNat

/-- The comparison `d <= a` of C++ for an integer-valued bound `a`. -/
def Double.leInt : Double → Int → Bool
  | .fin neg m e, a =>
    if 0 ≤ e then decide (signed neg (m * 2 ^ e.toNat) ≤ a)
    else decide (signed neg m ≤ a * 2 ^ (-e).toNat)
  | .inf neg, _ => neg
  | .nan _, _ => false

/-- The comparison `d >= a` of C++ for an integer-valued bound `a`. -/
def Double.geInt : Double → Int → Bool
  | .fin neg m e, a =>
    if 0 ≤ e then decide (a ≤ signed neg (m * 2 ^ e.toNat))
    else decide (a * 2 ^ (-e).toNat ≤ signed neg m)
  | .inf neg, _ => !neg
  | .nan _, _ => false

/-- The comparison `d < a` of C++ for an integer-valued bound `a`. -/
def Double.ltInt : Double → Int → Bool
  | .fin neg m e, a =>
    if 0 ≤ e then decide (signed neg (m * 2 ^ e.toNat) < a)
    else decide (signed neg m < a * 2 ^ (-e).toNat)
  | .inf neg, _ => neg
  | .nan _, _ => false

/-- Whether the denoted number is different from zero (`d != 0.0`; true for NaN). -/
def Double.isNonZero : Double → Bool
  | .fin _ m _ => decide (m ≠ 0)
  | .inf _ => true
  | .nan _ => true

/-- Whether the datum is negative zero. -/
def Double.isNegZero : Double → Bool
  | .fin true 0 _ => true
  | _ => false

/-- jsoncpp `IsIntegral(d)`: `modf(d, &ip) == 0.0`. -/
def IsIntegral : Double → Bool
  | .fin _ m e => if 0 ≤ e then true else decide (m % 2 ^ (-e).toNat = 0)
  | .inf _ => true
  | .nan _ => false

/-- jsoncpp `InRange(d, min, max)`: `d >= min && d <= max`. -/
def InRange (d : Double) (lo hi : Int) : Bool := d.geInt lo && d.leInt hi

/-- The value of a finite datum truncated toward zero, as `static_cast` to an integer
type computes it when the result is representable. -/
def Double.trunc? : Double → Option Int
  | .fin neg m e => some (signed neg (truncMag m e))
  | .inf _ => none
  | .nan _ => none

/-! ## Text: `printf`, `std::to_string`, `std::stod` -/

/-- The terminating zero byte. -/
def NUL : Char := Char.ofNat 0

/-- Digits left-padded with `0` to a width. -/
def padZeros (width : Nat) (ds : List Char) : List Char :=
  List.replicate (width - ds.length) '0' ++ ds

/-- The sign printed in front of a negative datum. -/
def signChars (neg : Bool) : List Char := if neg then ['-'] else []

/-- The complete text `printf` produces for `"%.*f"` with arguments `precision, d`: exactly
`precision` fraction digits (six when `precision` is negative), the exact value rounded to
nearest with ties to even, no decimal point when `precision` is `0`. -/
def formatFixed (d : Double) (precision : Int) : List Char :=
  let p : Nat := if precision < 0 then 6 else precision.toNat
  match d with
  | .fin neg m e =>
    let a := if 0 ≤ e then m * 10 ^ p * 2 ^ e.toNat else m * 10 ^ p
    let b := if 0 ≤ e then 1 else 2 ^ (-e).toNat
    let n := roundHalfEven a b
    signChars neg ++ Nat.toDigits 10 (n / 10 ^ p) ++
      (if p = 0 then [] else '.' :: padZeros p (Nat.toDigits 10 (n % 10 ^ p)))
  | .inf neg => signChars neg ++ ['i', 'n', 'f']
  | .nan neg => signChars neg ++ ['n', 'a', 'n']

/-- The 64-byte zero-initialised buffer after `snprintf(buf, 64, ...)` produced the text
`r`: at most 63 characters are stored, the rest stays zero. -/
def snprintfBuf (r : List Char) : List Char :=
  r.take 63 ++ List.replicate (64 - (r.take 63).length) NUL

/-- The value `snprintf` returns, stored in a `size_t`: the length of the complete text
whether or not it fitted; `-1` (so `2^64 - 1`) when that length exceeds `INT_MAX`. -/
def snprintfRet (r : List Char) : Nat :=
  if r.length ≤ 2147483647 then r.length else 2 ^ 64 - 1

/-- The read `buf[i]`. -/
def bufRead (buf : List Char) (i : Nat) : Except Failure Char :=
  match buf.get? i with
  | some c => .ok c
  | none => .error .outOfBounds

/-- Sequential search of `c` among the next `n` characters, `i` being the index reached. -/
def findFrom (c : Char) : List Char → Nat → Nat → Except Failure (Option Nat)
  | _, 0, _ => .ok none
  | [], _ + 1, _ => .error .outOfBounds
  | x :: xs, n + 1, i => if x = c then .ok (some i) else findFrom c xs n (i + 1)

/-- The call `std::char_traits<char>::find(buf, z, c)`, as an index into `buf`. -/
def find (buf : List Char) (z : Nat) (c : Char) : Except Failure (Option Nat) :=
  findFrom c buf z 0

/-- The loop `while (z > dot_pos && buf[z - 1] == '0') buf[--z] = 0`. -/
def trimZeros (dot_pos : Nat) : List Char → Nat → Except Failure (List Char × Nat)
  | buf, 0 => .ok (buf, 0)
  | buf, z + 1 =>
    if dot_pos < z + 1 then
      match bufRead buf z with
      | .error f => .error f
      | .ok c => if c = '0' then trimZeros dot_pos (buf.set z NUL) z else .ok (buf, z + 1)
    else .ok (buf, z + 1)

/-- The statement `if (z > 0 && buf[z - 1] == '.') buf[--z] = 0`. -/
def trimDot (buf : List Char) (z : Nat) : Except Failure (List Char × Nat) :=
  match z with
  | 0 => .ok (buf, 0)
  | z + 1 =>
    match bufRead buf z with
    | .error f => .error f
    | .ok c => if c = '.' then .ok (buf.set z NUL, z) else .ok (buf, z + 1)

/-- The constructor `std::string(buf, z)`: the first `z` bytes of the buffer. -/
def mkString (buf : List Char) (z : Nat) : Except Failure String :=
  if z ≤ buf.length then .ok (String.mk (buf.take z)) else .error .outOfBounds

/-- The function `toStr(double t, int precision = 8, bool trimLeadingZero = true)`. -/
def toStr (t : Double) (precision : Int) (trimLeadingZero : Bool) : Except Failure String :=
  let r := formatFixed t precision
  let buf := snprintfBuf r
  let z := snprintfRet r
  if trimLeadingZero then
    match find buf z '.' with
    | .error f => .error f
    | .ok none => mkString buf z
    | .ok (some dot_pos) =>
      match trimZeros dot_pos buf z with
      | .error f => .error f
      | .ok (buf1, z1) =>
        match trimDot buf1 z1 with
        | .error f => .error f
        | .ok (buf2, z2) => mkString buf2 z2
  else mkString buf z

/-- The body of `toStr` after the `snprintf` call, with trimming requested: the search of
the decimal point, the loop over trailing zeros, the removal of a final point and the
construction of the result from `buf` and `z`. -/
def trimStep (buf : List Char) (z : Nat) : Except Failure String :=
  match find buf z '.' with
  | .error f => .error f
  | .ok none => mkString buf z
  | .ok (some dot_pos) =>
    match trimZeros dot_pos buf z with
    | .error f => .error f
    | .ok (buf1, z1) =>
      match trimDot buf1 z1 with
      | .error f => .error f
      | .ok (buf2, z2) => mkString buf2 z2

/-- The trimming step applied to a text `r` that `snprintf` has put in the buffer. -/
def trimText (r : List Char) : Except Failure String :=
  trimStep (snprintfBuf r) (snprintfRet r)

/-- Follows the specification's words for trimming: "strip trailing `'0'` characters after
the decimal point, then strip the decimal point itself if nothing remains after it".  A text
without decimal point is left as it is. -/
def trimSpec (r : List Char) : List Char :=
  match r.dropWhile (fun c => c ≠ '.') with
  | [] => r
  | _ :: frac =>
    let kept := frac.rdropWhile (fun c => c = '0')
    if kept = [] then r.takeWhile (fun c => c ≠ '.')
    else r.takeWhile (fun c => c ≠ '.') ++ '.' :: kept

/-- A run of one or more decimal digits. -/
def isDigits (ds : List Char) : Prop := ds ≠ [] ∧ ∀ c ∈ ds, c.isDigit = true

instance (ds : List Char) : Decidable (isDigits ds) := by
  unfold isDigits; infer_instance

/-- The function `std::to_string(long long)`: decimal digits, `-` in front when negative. -/
def to_string (i : Int) : String :=
  String.mk (signChars (decide (i < 0)) ++ Nat.toDigits 10 i.natAbs)

/-- The C-locale `isspace`. -/
def isspace (c : Char) : Bool := c.toNat = 32 || (9 ≤ c.toNat && c.toNat ≤ 13)

/-- Value of a decimal digit. -/
def decDigit (c : Char) : Option Nat :=
  if 48 ≤ c.toNat ∧ c.toNat ≤ 57 then some (c.toNat - 48) else none

/-- Value of a hexadecimal digit. -/
def hexDigit (c : Char) : Option Nat :=
  if 48 ≤ c.toNat ∧ c.toNat ≤ 57 then some (c.toNat - 48)
  else if 97 ≤ c.toNat ∧ c.toNat ≤ 102 then some (c.toNat - 87)
  else if 65 ≤ c.toNat ∧ c.toNat ≤ 70 then some (c.toNat - 55)
  else none

/-- Consume the longest run of digits, accumulating the value and the count. -/
def scanDigits (dig : Char → Option Nat) (base : Nat) :
    List Char → Nat → Nat → Nat × Nat × List Char
  | [], acc, n => (acc, n, [])
  | c :: cs, acc, n =>
    match dig c with
    | some d => scanDigits dig base cs (acc * base + d) (n + 1)
    | none => (acc, n, c :: cs)

/-- Digits with an optional `.`: the significand as an integer and the number of fraction
digits, or `none` when there was no digit at all. -/
def scanSignificand (dig : Char → Option Nat) (base : Nat) (cs : List Char) :
    Option (Nat × Nat × List Char) :=
  match scanDigits dig base cs 0 0 with
  | (ip, ni, r1) =>
    match r1 with
    | '.' :: r =>
      (match scanDigits dig base r ip 0 with
       | (v, nf, r2) => if ni + nf = 0 then none else some (v, nf, r2))
    | _ => if ni = 0 then none else some (ip, 0, r1)

/-- An optional exponent part introduced by one of the two marker characters: a sign and
at least one decimal digit.  Absent or malformed, the exponent is `0`. -/
def scanExponent (lower upper : Char) (cs : List Char) : Int :=
  match cs with
  | c :: r =>
    if c = lower ∨ c = upper then
      match r with
      | '-' :: r1 =>
        (match scanDigits decDigit 10 r1 0 0 with
         | (v, n, _) => if n = 0 then 0 else -(v : Int))
      | '+' :: r1 =>
        (match scanDigits decDigit 10 r1 0 0 with
         | (v, n, _) => if n = 0 then 0 else (v : Int))
      | _ =>
        (match scanDigits decDigit 10 r 0 0 with
         | (v, n, _) => if n = 0 then 0 else (v : Int))
    else 0
  | [] => 0

/-- What `std::stod` does: throw one of its two exceptions, or return a value. -/
inductive StodResult where
  | invalid_argument
  | out_of_range
  | value (d : Double)
  deriving DecidableEq, Repr

/-- The result for the magnitude `num / den`: `ERANGE` (so `std::out_of_range`) on overflow
and on an inexact result below the normal range. -/
def stodRound (neg : Bool) (num den : Nat) : StodResult :=
  match roundTo binary64 num den with
  | .overflow => .out_of_range
  | .value m e inexact =>
    if inexact ∧ m < 2 ^ 52 then .out_of_range else .value (.fin neg m e)

/-- ASCII lower-casing of a character. -/
def lowerC (c : Char) : Char :=
  if 65 ≤ c.toNat ∧ c.toNat ≤ 90 then Char.ofNat (c.toNat + 32) else c

/-- The subject sequence after white space and sign. -/
def stodBody (neg : Bool) (cs : List Char) : StodResult :=
  match cs.map lowerC with
  | 'i' :: 'n' :: 'f' :: _ => .value (.inf neg)
  | 'n' :: 'a' :: 'n' :: _ => .value (.nan neg)
  | '0' :: 'x' :: _ =>
    (match scanSignificand hexDigit 16 (cs.drop 2) with
     | some (v, nf, r) =>
       let x : Int := scanExponent 'p' 'P' r - 4 * (nf : Int)
       if 0 ≤ x then stodRound neg (v * 2 ^ x.toNat) 1 else stodRound neg v (2 ^ (-x).toNat)
     | none => .value (.fin neg 0 0))
  | _ =>
    match scanSignificand decDigit 10 cs with
    | some (v, nf, r) =>
      let x : Int := scanExponent 'e' 'E' r - (nf : Int)
      if 0 ≤ x then stodRound neg (v * 10 ^ x.toNat) 1 else stodRound neg v (10 ^ (-x).toNat)
    | none => .invalid_argument

/-- The function `std::stod(str)` (`strtod` on `str.c_str()`): skip white space, read an
optional sign, convert the longest initial part that is a number, ignore what follows. -/
def stod (str : String) : StodResult :=
  match (str.toList.takeWhile (fun c => c ≠ NUL)).dropWhile isspace with
  | '-' :: cs => stodBody true cs
  | '+' :: cs => stodBody false cs
  | cs => stodBody false cs

/-! ## Arithmetic field types and `static_cast` -/

/-- Width of an integer type. -/
inductive IntWidth where
  | w8 | w16 | w32 | w64
  deriving DecidableEq, Repr

/-- Number of bits of a width. -/
def IntWidth.bits : IntWidth → Nat
  | .w8 => 8
  | .w16 => 16
  | .w32 => 32
  | .w64 => 64

/-- An integer field type: `int8_t` ... `int64_t`, `uint8_t` ... `uint64_t`. -/
structure IntType where
  isSigned : Bool
  width : IntWidth
  deriving DecidableEq, Repr

/-- Smallest value of the type. -/
def IntType.minVal (T : IntType) : Int :=
  if T.isSigned then -(2 ^ (T.width.bits - 1) : Int) else 0

/-- Largest value of the type. -/
def IntType.maxVal (T : IntType) : Int :=
  if T.isSigned then (2 ^ (T.width.bits - 1) : Int) - 1 else (2 ^ T.width.bits : Int) - 1

/-- The values a field of the type can hold. -/
def IntType.holds (T : IntType) (v : Int) : Prop := T.minVal ≤ v ∧ v ≤ T.maxVal

instance (T : IntType) (v : Int) : Decidable (T.holds v) := by
  unfold IntType.holds; infer_instance

/-- Conversion `static_cast<T>(i)` of a 64-bit integer: reduction modulo `2^bits`. -/
def IntType.ofInt64 (T : IntType) (i : Int) : Int :=
  (i - T.minVal) % (2 ^ T.width.bits : Int) + T.minVal

/-- Conversion `static_cast<T>(d)` of a double to an integer type: truncation toward zero,
undefined when the truncated value is not representable in `T`. -/
def IntType.ofDouble (T : IntType) (d : Double) : Except Failure Int :=
  match d.trunc? with
  | some t => if T.holds t then .ok t else .error .undefinedConversion
  | none => .error .undefinedConversion

/-- A floating field type. -/
inductive FloatType where
  | float
  | double
  deriving DecidableEq, Repr

/-- Conversion `static_cast<float>(d)`: rounding to binary32, undefined beyond its range. -/
def toBinary32 : Double → Except Failure Double
  | .fin neg m e =>
    match (if 0 ≤ e then roundTo binary32 (m * 2 ^ e.toNat) 1
           else roundTo binary32 m (2 ^ (-e).toNat)) with
    | .value m1 e1 _ => .ok (.fin neg m1 e1)
    | .overflow => .error .undefinedConversion
  | .inf neg => .ok (.inf neg)
  | .nan neg => .ok (.nan neg)

/-- Conversion `static_cast<T>(d)` of a double to a floating type. -/
def FloatType.ofDouble : FloatType → Double → Except Failure Double
  | .double, d => .ok d
  | .float, d => toBinary32 d

/-- Conversion `static_cast<T>(i)` of a 64-bit integer to a floating type. -/
def FloatType.ofInt64 : FloatType → Int → Double
  | .double, i => Double.ofInt i
  | .float, i =>
    match roundTo binary32 i.natAbs 1 with
    | .value m e _ => .fin (decide (i < 0)) m e
    | .overflow => .inf (decide (i < 0))

/-! ## The JSON value of jsoncpp -/

/-- The tagged union `Json::Value`.  An object keeps its members sorted by name, without
duplicates, as the `std::map` inside jsoncpp does. -/
inductive Value where
  | nullValue
  | intValue (i : Int)
  | uintValue (u : Nat)
  | realValue (d : Double)
  | stringValue (s : String)
  | booleanValue (b : Bool)
  | arrayValue (elems : List Value)
  | objectValue (members : List (String × Value))

namespace Value

/-- The limit `Value::minInt`. -/
def minInt : Int := -2147483648
/-- The limit `Value::maxInt`. -/
def maxInt : Int := 2147483647
/-- The limit `Value::minInt64`. -/
def minInt64 : Int := -9223372036854775808
/-- The limit `Value::maxInt64`. -/
def maxInt64 : Int := 9223372036854775807

/-- The query `isNull()`. -/
def isNull : Value → Bool
  | nullValue => true
  | _ => false

/-- The query `isBool()`. -/
def isBool : Value → Bool
  | booleanValue _ => true
  | _ => false

/-- The query `isString()`. -/
def isString : Value → Bool
  | stringValue _ => true
  | _ => false

/-- The query `isArray()`. -/
def isArray : Value → Bool
  | arrayValue _ => true
  | _ => false

/-- The query `isObject()`. -/
def isObject : Value → Bool
  | objectValue _ => true
  | _ => false

/-- The query `isDouble()`: any of the three numeric tags. -/
def isDouble : Value → Bool
  | intValue _ => true
  | uintValue _ => true
  | realValue _ => true
  | _ => false

/-- The query `isNumeric()`, which is `isDouble()`. -/
def isNumeric (json : Value) : Bool := json.isDouble

/-- The query `isInt()`. -/
def isInt : Value → Bool
  | intValue i => decide (minInt ≤ i) && decide (i ≤ maxInt)
  | uintValue u => decide ((u : Int) ≤ maxInt)
  | realValue d => d.geInt minInt && d.leInt maxInt && IsIntegral d
  | _ => false

/-- The query `isInt64()`.  For a real the upper bound is strict: `double(maxInt64)` is
`2^63`. -/
def isInt64 : Value → Bool
  | intValue _ => true
  | uintValue u => decide ((u : Int) ≤ maxInt64)
  | realValue d => d.geInt minInt64 && d.ltInt (maxInt64 + 1) && IsIntegral d
  | _ => false

/-- The conversion `asInt()`: asserts that the number lies in the 32-bit range. -/
def asInt : Value → Except Failure Int
  | intValue i => if minInt ≤ i ∧ i ≤ maxInt then .ok i else .error .logicError
  | uintValue u => if (u : Int) ≤ maxInt then .ok u else .error .logicError
  | realValue d =>
    if InRange d minInt maxInt then
      match d.trunc? with
      | some t => .ok t
      | none => .error .undefinedConversion
    else .error .logicError
  | nullValue => .ok 0
  | booleanValue b => .ok (if b then 1 else 0)
  | _ => .error .logicError

/-- The conversion `asInt64()`.  For a real, `InRange` compares with `double(maxInt64)`,
which is `2^63`; the cast of exactly `2^63` is then undefined. -/
def asInt64 : Value → Except Failure Int
  | intValue i => .ok i
  | uintValue u => if (u : Int) ≤ maxInt64 then .ok u else .error .logicError
  | realValue d =>
    if InRange d minInt64 (maxInt64 + 1) then
      match d.trunc? with
      | some t => if t ≤ maxInt64 then .ok t else .error .undefinedConversion
      | none => .error .undefinedConversion
    else .error .logicError
  | nullValue => .ok 0
  | booleanValue b => .ok (if b then 1 else 0)
  | _ => .error .logicError

/-- The conversion `asDouble()`. -/
def asDouble : Value → Except Failure Double
  | intValue i => .ok (Double.ofInt i)
  | uintValue u => .ok (Double.ofNat false u)
  | realValue d => .ok d
  | nullValue => .ok (.fin false 0 0)
  | booleanValue b => .ok (if b then .fin false 1 0 else .fin false 0 0)
  | _ => .error .logicError

/-- The conversion `asBool()`. -/
def asBool : Value → Except Failure Bool
  | booleanValue b => .ok b
  | nullValue => .ok false
  | intValue i => .ok (decide (i ≠ 0))
  | uintValue u => .ok (decide (u ≠ 0))
  | realValue d =>
    .ok (match d with
      | .fin _ m _ => decide (m ≠ 0)
      | .inf _ => true
      | .nan _ => false)
  | _ => .error .logicError

/-- The conversion `asString()` on a string node: the text, verbatim.  The header calls
`asString` on string nodes only, so its renderings of other nodes are not modelled. -/
def asString (json : Value) (_h : json.isString = true) : String :=
  match json with
  | stringValue s => s
  | _ => ""

/-- Look a name up among the members. -/
def lookup (name : String) : List (String × Value) → Option Value
  | [] => none
  | (k, v) :: rest => if k = name then some v else lookup name rest

/-- Set a member, keeping the list sorted by name: replace the value when the name is
there, insert it in place otherwise. -/
def insertMember (name : String) (v : Value) : List (String × Value) → List (String × Value)
  | [] => [(name, v)]
  | (k, w) :: rest =>
    if k = name then (name, v) :: rest
    else if name < k then (name, v) :: (k, w) :: rest
    else (k, w) :: insertMember name v rest

/-- The query `isMember(name)`: asserts that the node is null or an object. -/
def isMember (json : Value) (name : String) : Except Failure Bool :=
  match json with
  | nullValue => .ok false
  | objectValue ms => .ok (lookup name ms).isSome
  | _ => .error .logicError

/-- The read access `json[name]` on a const node: the member, or the null singleton. -/
def get (json : Value) (name : String) : Except Failure Value :=
  match json with
  | nullValue => .ok nullValue
  | objectValue ms => .ok ((lookup name ms).getD nullValue)
  | _ => .error .logicError

/-- The assignment `json[name] = v`: a null node becomes an object first; a node that is
neither null nor an object fails the assertion. -/
def set (json : Value) (name : String) (v : Value) : Except Failure Value :=
  match json with
  | nullValue => .ok (objectValue [(name, v)])
  | objectValue ms => .ok (objectValue (insertMember name v ms))
  | _ => .error .logicError

end Value

/-! ## The header: coercion rules -/

open Value

/-- The default rule `JsonDefaultInit<T>`: `ref = T()`, whatever the field held; `dflt` is
the value-initialised `T()`. -/
def JsonDefaultInit {T : Type} (dflt : T) (_ref : T) : T := dflt

/-- The two-argument form `JsonDefaultInit<T>::operator()(ref, json)`, which is also the
primary template `JsonInit<T>` used for every type without a specialisation. -/
def JsonInit_other {T : Type} (dflt : T) (ref : T) (_json : Value) : Except Failure T :=
  .ok (JsonDefaultInit dflt ref)

/-- The specialisation `JsonInit<std::string>`.  The result is the content of the field
after the call; where no branch assigns, it is the prior content `ref`. -/
def JsonInit_string (ref : String) (json : Value) : Except Failure String :=
  if json.isNull then .ok ""
  else if h : json.isString = true then .ok (json.asString h)
  else if json.isNumeric then
    if json.isInt64 then
      match json.asInt64 with
      | .ok i => .ok (to_string i)
      | .error f => .error f
    else if json.isDouble then
      match json.asDouble with
      | .ok d => toStr d 8 true
      | .error f => .error f
    else .ok ref
  else .ok ref

/-- The partial specialisation `JsonInit<T>` for arithmetic `T`, at an integer type.  The
`try` block around `std::stod` catches its two exceptions and assigns `T()`. -/
def JsonInit_int (T : IntType) (ref : Int) (json : Value) : Except Failure Int :=
  if json.isNumeric then
    if json.isInt64 then
      match json.asInt64 with
      | .ok i => .ok (T.ofInt64 i)
      | .error f => .error f
    else if json.isDouble then
      match json.asDouble with
      | .ok d => T.ofDouble d
      | .error f => .error f
    else .ok ref
  else if h : json.isString = true then
    match stod (json.asString h) with
    | .value d => T.ofDouble d
    | .invalid_argument => .ok 0
    | .out_of_range => .ok 0
  else .ok 0

/-- The partial specialisation `JsonInit<T>` for arithmetic `T`, at `float` or `double`. -/
def JsonInit_float (T : FloatType) (ref : Double) (json : Value) : Except Failure Double :=
  if json.isNumeric then
    if json.isInt64 then
      match json.asInt64 with
      | .ok i => .ok (T.ofInt64 i)
      | .error f => .error f
    else if json.isDouble then
      match json.asDouble with
      | .ok d => T.ofDouble d
      | .error f => .error f
    else .ok ref
  else if h : json.isString = true then
    match stod (json.asString h) with
    | .value d => T.ofDouble d
    | .invalid_argument => .ok (.fin false 0 0)
    | .out_of_range => .ok (.fin false 0 0)
  else .ok (.fin false 0 0)

/-- The specialisation `JsonInit<bool>`. -/
def JsonInit_bool (_ref : Bool) (json : Value) : Except Failure Bool :=
  if json.isBool then json.asBool
  else if h : json.isString = true then
    let str := json.asString h
    .ok (decide (str = "true") || decide (str = "1"))
  else if json.isNumeric then
    match json.asInt with
    | .ok i => .ok (decide (i ≠ 0))
    | .error f => .error f
  else .ok false

/-! ## The header: binding protocol -/

/-- What the templates need to know of a field type `T`: the value `T()`, the rule
`JsonInit<T>` selected for it, and the `Json::Value` constructor selected for it. -/
structure FieldType (T : Type) where
  dflt : T
  init : T → Value → Except Failure T
  toValue : T → Value

/-- Field type `std::string`. -/
def stringField : FieldType String :=
  ⟨"", JsonInit_string, fun s => stringValue s⟩

/-- Field type `bool`. -/
def boolField : FieldType Bool :=
  ⟨false, JsonInit_bool, fun b => booleanValue b⟩

/-- The node built from an integer field: types narrower than `int` are promoted to `int`,
so only `unsigned int` and `uint64_t` select an unsigned constructor. -/
def IntType.toValue (T : IntType) (v : Int) : Value :=
  match T.isSigned, T.width with
  | false, .w32 => uintValue v.toNat
  | false, .w64 => uintValue v.toNat
  | _, _ => intValue v

/-- An integer field type. -/
def intField (T : IntType) : FieldType Int :=
  ⟨0, JsonInit_int T, T.toValue⟩

/-- A floating field type; a `float` is promoted to `double` when the node is built. -/
def floatField (T : FloatType) : FieldType Double :=
  ⟨.fin false 0 0, JsonInit_float T, fun d => realValue d⟩

/-- Any other field type, with its value `T()` and the node the generic constructor
`Json::Value(ref)` builds from it. -/
def otherField {T : Type} (dflt : T) (toValue : T → Value) : FieldType T :=
  ⟨dflt, JsonInit_other dflt, toValue⟩

/-- The operator `json >> mjRef(name, ref)`: the node, returned as it was passed, and the
content of the field afterwards. -/
def read {T : Type} (F : FieldType T) (json : Value) (name : String) (ref : T) :
    Except Failure (Value × T) :=
  match json.isMember name with
  | .error f => .error f
  | .ok false => .ok (json, JsonDefaultInit F.dflt ref)
  | .ok true =>
    match json.get name with
    | .error f => .error f
    | .ok value =>
      match F.init ref value with
      | .ok r => .ok (json, r)
      | .error f => .error f

/-- The operator `json << mjRef(name, ref)`: both branches of the `is_arithmetic` test
assign the node built from the field to `json[name]`. -/
def write {T : Type} (F : FieldType T) (json : Value) (name : String) (ref : T) :
    Except Failure (Value × T) :=
  match json.set name (F.toValue ref) with
  | .ok j => .ok (j, ref)
  | .error f => .error f

/-- The function `vectorToJson`: an array node with the elements in order. -/
def vectorToJson (array : List Int) : Value :=
  arrayValue (array.map fun i => intValue i)

/-- The operator `>>` on a `std::shared_ptr<Json::Value>`; `none` is the empty pointer. -/
def readPtr {T : Type} (F : FieldType T) (json : Option Value) (name : String) (ref : T) :
    Except Failure (Option Value × T) :=
  match json with
  | some j =>
    (match read F j name ref with
     | .ok (j1, r) => .ok (some j1, r)
     | .error f => .error f)
  | none => .ok (none, JsonDefaultInit F.dflt ref)

/-- The operator `<<` on a `std::shared_ptr<Json::Value>`: an empty pointer is first set
to a fresh default-constructed (null) value. -/
def writePtr {T : Type} (F : FieldType T) (json : Option Value) (name : String) (ref : T) :
    Except Failure (Option Value × T) :=
  let j := match json with
    | some j => j
    | none => nullValue
  match write F j name ref with
  | .ok (j1, r) => .ok (some j1, r)
  | .error f => .error f

/-! ## Lemmas on the model -/

/-- A value of the type is unchanged by the conversion from a 64-bit integer. -/
theorem IntType.ofInt64_of_holds (T : IntType) (v : Int) (h : T.holds v) : T.ofInt64 v = v := by
  rcases T with ⟨s, w⟩
  cases s <;> cases w <;>
    simp [IntType.holds, IntType.minVal, IntType.maxVal, IntWidth.bits] at h <;>
    simp [IntType.ofInt64, IntType.minVal, IntWidth.bits] <;> omega

/-- The rule for strings has no branch for a bool, an array or an object: the field keeps
what it held. -/
theorem JsonInit_string_keeps_prior (prior : String) :
    (∀ b, JsonInit_string prior (booleanValue b) = .ok prior) ∧
    (∀ xs, JsonInit_string prior (arrayValue xs) = .ok prior) ∧
    (∀ ms, JsonInit_string prior (objectValue ms) = .ok prior) := by
  refine ⟨?_, ?_, ?_⟩ <;> intro x <;>
    simp [JsonInit_string, isNull, isString, isNumeric, isDouble]

/-- Integer round trip where it does hold: every value of every integer type that is at
most `2^63 - 1`, written into a fresh value and read back, is recovered exactly. -/
theorem roundtrip_int_of_fits (T : IntType) (k : String) (v prior : Int) (hv : T.holds v)
    (hfit : v ≤ maxInt64) :
    ∃ obj, write (intField T) nullValue k v = .ok (obj, v) ∧
      read (intField T) obj k prior = .ok (obj, v) := by
  refine ⟨objectValue [(k, T.toValue v)], by simp [write, Value.set, intField], ?_⟩
  have hcast := IntType.ofInt64_of_holds T v hv
  rcases T with ⟨s, w⟩
  cases s
  · have hnn : 0 ≤ v := by
      simp [IntType.holds, IntType.minVal] at hv; exact hv.1
    obtain ⟨n, rfl⟩ := Int.eq_ofNat_of_zero_le hnn
    have hfit2 : (n : Int) ≤ 9223372036854775807 := hfit
    cases w <;>
      simp [read, isMember, Value.get, lookup, intField, IntType.toValue, JsonInit_int,
        isNumeric, isDouble, isInt64, asInt64, hcast, maxInt64, hfit2]
  · cases w <;>
      simp [read, isMember, Value.get, lookup, intField, IntType.toValue, JsonInit_int,
        isNumeric, isDouble, isInt64, asInt64, hcast]

/-- The boolean rule on the strings the specification lists. -/
theorem JsonInit_bool_string_examples (prior : Bool) :
    JsonInit_bool prior (stringValue "true") = .ok true ∧
    JsonInit_bool prior (stringValue "1") = .ok true ∧
    JsonInit_bool prior (stringValue "yes") = .ok false ∧
    JsonInit_bool prior (stringValue "True") = .ok false ∧
    JsonInit_bool prior (stringValue "") = .ok false ∧
    JsonInit_bool prior (stringValue "01") = .ok false := by
  refine ⟨?_, ?_, ?_, ?_, ?_, ?_⟩ <;> rfl

/-- After a member is set, its name is found with the value set. -/
theorem lookup_insertMember_self (k : String) (v : Value) (ms : List (String × Value)) :
    lookup k (insertMember k v ms) = some v := by
  induction ms with
  | nil => simp [insertMember, lookup]
  | cons hd tl ih =>
    obtain ⟨k', w⟩ := hd
    by_cases h1 : k' = k
    · simp [insertMember, lookup, h1]
    · by_cases h2 : k < k'
      · simp [insertMember, lookup, h1, h2]
      · simp [insertMember, lookup, h1, h2, ih]

/-- Setting a member does not change what any other name is bound to. -/
theorem lookup_insertMember_other (k j : String) (v : Value) (ms : List (String × Value))
    (hj : j ≠ k) : lookup j (insertMember k v ms) = lookup j ms := by
  induction ms with
  | nil => simp [insertMember, lookup, Ne.symm hj]
  | cons hd tl ih =>
    obtain ⟨k', w⟩ := hd
    by_cases h1 : k' = k
    · subst h1
      simp [insertMember, lookup, Ne.symm hj]
    · by_cases h2 : k < k'
      · simp [insertMember, lookup, h1, h2, Ne.symm hj]
      · by_cases h3 : k' = j
        · subst h3
          simp [insertMember, lookup, h1, h2]
        · simp [insertMember, lookup, h1, h2, h3, ih]

/-- Setting the name at the head of the list replaces the value there. -/
theorem insertMember_cons_eq (k k' : String) (v w : Value) (tl : List (String × Value))
    (h : k' = k) : insertMember k v ((k', w) :: tl) = (k, v) :: tl := by
  simp only [insertMember, h, if_true]

/-- A name below the head of the list is put in front. -/
theorem insertMember_cons_lt (k k' : String) (v w : Value) (tl : List (String × Value))
    (h : k < k') : insertMember k v ((k', w) :: tl) = (k, v) :: (k', w) :: tl := by
  have hne : ¬ k' = k := fun e => lt_irrefl k (e ▸ h)
  simp only [insertMember, hne, h, if_true, if_false]

/-- A name above the head of the list goes into the tail. -/
theorem insertMember_cons_gt (k k' : String) (v w : Value) (tl : List (String × Value))
    (h : k' < k) : insertMember k v ((k', w) :: tl) = (k', w) :: insertMember k v tl := by
  have hne : ¬ k' = k := fun e => lt_irrefl k (e ▸ h)
  have hlt : ¬ k < k' := lt_asymm h
  simp only [insertMember, hne, hlt, if_false]

/-- Two members with names in increasing order can be set in either order. -/
theorem insertMember_comm_of_lt (k1 k2 : String) (v1 v2 : Value) (ms : List (String × Value))
    (hlt : k1 < k2) :
    insertMember k2 v2 (insertMember k1 v1 ms) = insertMember k1 v1 (insertMember k2 v2 ms) := by
  induction ms with
  | nil =>
    have e1 : insertMember k1 v1 [] = [(k1, v1)] := rfl
    have e2 : insertMember k2 v2 [] = [(k2, v2)] := rfl
    rw [e1, e2, insertMember_cons_gt k2 k1 v2 v1 [] hlt, insertMember_cons_lt k1 k2 v1 v2 [] hlt]
    rfl
  | cons hd tl ih =>
    obtain ⟨k', w⟩ := hd
    rcases lt_trichotomy k1 k' with a | a | a
    · rw [insertMember_cons_lt k1 k' v1 w tl a, insertMember_cons_gt k2 k1 v2 v1 _ hlt]
      rcases lt_trichotomy k2 k' with b | b | b
      · rw [insertMember_cons_lt k2 k' v2 w tl b, insertMember_cons_lt k1 k2 v1 v2 _ hlt]
      · rw [insertMember_cons_eq k2 k' v2 w tl b.symm, insertMember_cons_lt k1 k2 v1 v2 _ hlt]
      · rw [insertMember_cons_gt k2 k' v2 w tl b, insertMember_cons_lt k1 k' v1 w _ a]
    · subst a
      rw [insertMember_cons_eq k1 k1 v1 w tl rfl, insertMember_cons_gt k2 k1 v2 v1 tl hlt,
        insertMember_cons_gt k2 k1 v2 w tl hlt, insertMember_cons_eq k1 k1 v1 w _ rfl]
    · have b : k' < k2 := lt_trans a hlt
      rw [insertMember_cons_gt k1 k' v1 w tl a, insertMember_cons_gt k2 k' v2 w _ b,
        insertMember_cons_gt k2 k' v2 w tl b, insertMember_cons_gt k1 k' v1 w _ a, ih]

/-- Two members with distinct names can be set in either order. -/
theorem insertMember_comm (k1 k2 : String) (v1 v2 : Value) (ms : List (String × Value))
    (hne : k1 ≠ k2) :
    insertMember k2 v2 (insertMember k1 v1 ms) = insertMember k1 v1 (insertMember k2 v2 ms) := by
  rcases lt_trichotomy k1 k2 with h | h | h
  · exact insertMember_comm_of_lt k1 k2 v1 v2 ms h
  · exact absurd h hne
  · exact (insertMember_comm_of_lt k2 k1 v2 v1 ms h).symm
/-! ## Lemmas on the formatter -/

/-- Reading the buffer just after a known beginning gives the next character. -/
theorem bufRead_append_length (l : List Char) (c : Char) (tail : List Char) :
    bufRead (l ++ c :: tail) l.length = .ok c := by
  have h : (l ++ c :: tail).get? l.length = some c := by
    induction l with
    | nil => rfl
    | cons x xs ih => simpa using ih
  simp only [bufRead, h]

/-- Writing the buffer just after a known beginning replaces the next character. -/
theorem set_append_length (l : List Char) (c x : Char) (tail : List Char) :
    (l ++ c :: tail).set l.length x = l ++ x :: tail := by
  simp

/-- The search finds nothing in a text without decimal point, and stays inside it. -/
theorem findFrom_no_dot (r tail : List Char) (i : Nat) (h : '.' ∉ r) :
    findFrom '.' (r ++ tail) r.length i = .ok none := by
  induction r generalizing i with
  | nil => cases tail <;> rfl
  | cons x xs ih =>
    have hx : x ≠ '.' := fun e => h (by simp [e])
    have hxs : '.' ∉ xs := fun e => h (by simp [e])
    simp [findFrom, hx, ih (i + 1) hxs]

/-- The search stops at the first decimal point. -/
theorem findFrom_dot (pre rest : List Char) (n i : Nat) (h : '.' ∉ pre) (hn : pre.length < n) :
    findFrom '.' (pre ++ '.' :: rest) n i = .ok (some (i + pre.length)) := by
  induction pre generalizing n i with
  | nil =>
    obtain ⟨n, rfl⟩ : ∃ m, n = m + 1 := ⟨n - 1, by simp at hn; omega⟩
    simp [findFrom]
  | cons x xs ih =>
    have hx : x ≠ '.' := fun e => h (by simp [e])
    have hxs : '.' ∉ xs := fun e => h (by simp [e])
    obtain ⟨n, rfl⟩ : ∃ m, n = m + 1 := ⟨n - 1, by simp at hn; omega⟩
    have hn' : xs.length < n := by simp at hn; omega
    simp [findFrom, hx, ih n (i + 1) hxs hn']
    omega

/-- The loop removes exactly the trailing zeros of the fraction; it only rewrites bytes
beyond the length it returns. -/
theorem trimZeros_text (pre frac tail : List Char) :
    ∃ tail', trimZeros pre.length ((pre ++ '.' :: frac) ++ tail) (pre ++ '.' :: frac).length
      = .ok ((pre ++ '.' :: frac.rdropWhile (fun c => c = '0')) ++ tail',
          (pre ++ '.' :: frac.rdropWhile (fun c => c = '0')).length) := by
  induction frac using List.reverseRecOn generalizing tail with
  | nil =>
    refine ⟨tail, ?_⟩
    have hlen : (pre ++ ['.']).length = pre.length + 1 := by simp
    have hr : bufRead (pre ++ '.' :: tail) pre.length = .ok '.' := bufRead_append_length _ _ _
    simp [hlen, trimZeros, hr]
  | append_singleton frac0 c ih =>
    have hl : (pre ++ '.' :: (frac0 ++ [c])).length = (pre ++ '.' :: frac0).length + 1 := by
      simp; omega
    have hb : (pre ++ '.' :: (frac0 ++ [c])) ++ tail = (pre ++ '.' :: frac0) ++ c :: tail := by
      simp
    have hr : bufRead ((pre ++ '.' :: frac0) ++ c :: tail) (pre ++ '.' :: frac0).length = .ok c :=
      bufRead_append_length _ _ _
    have hdot : pre.length < (pre ++ '.' :: frac0).length + 1 := by simp; omega
    rw [hl, hb]
    by_cases hc : c = '0'
    · subst hc
      obtain ⟨tail', ht⟩ := ih (NUL :: tail)
      refine ⟨tail', ?_⟩
      rw [List.rdropWhile_concat_pos _ _ _ (by simp)]
      rw [← ht]
      simp only [trimZeros, hdot, if_true, hr, set_append_length]
    · refine ⟨tail, ?_⟩
      rw [List.rdropWhile_concat_neg _ _ _ (by simpa using hc)]
      simp only [trimZeros, hdot, if_true, hr, hc, if_false]
      simp
      omega

/-- The statement after the loop removes a final decimal point and nothing else. -/
theorem trimDot_last (l : List Char) (c : Char) (tail : List Char) :
    trimDot ((l ++ [c]) ++ tail) (l ++ [c]).length
      = if c = '.' then .ok (l ++ NUL :: tail, l.length)
        else .ok ((l ++ [c]) ++ tail, (l ++ [c]).length) := by
  have hl : (l ++ [c]).length = l.length + 1 := by simp
  have hb : (l ++ [c]) ++ tail = l ++ c :: tail := by simp
  rw [hl, hb]
  simp only [trimDot, bufRead_append_length, set_append_length]

/-- The result is built from the text at the beginning of the buffer. -/
theorem mkString_text (l tail : List Char) :
    mkString (l ++ tail) l.length = .ok (String.mk l) := by
  simp [mkString]

/-- A rendering of at most 63 characters is stored whole. -/
theorem snprintfBuf_of_fits (r : List Char) (h : r.length ≤ 63) :
    snprintfBuf r = r ++ List.replicate (64 - r.length) NUL := by
  simp [snprintfBuf, List.take_of_length_le h]

/-- For a rendering of at most 63 characters the value returned is its length. -/
theorem snprintfRet_of_fits (r : List Char) (h : r.length ≤ 63) : snprintfRet r = r.length := by
  have : r.length ≤ 2147483647 := by omega
  simp [snprintfRet, this]

/-- The trimming step leaves a text without decimal point as it is. -/
theorem trimText_no_dot (r : List Char) (h : '.' ∉ r) (hfit : r.length ≤ 63) :
    trimText r = .ok (String.mk r) := by
  simp only [trimText, trimStep, snprintfBuf_of_fits r hfit, snprintfRet_of_fits r hfit, find,
    findFrom_no_dot r _ 0 h, mkString_text]

/-- The trimming step on a text with one decimal point. -/
theorem trimText_dot (pre frac : List Char) (hpre : '.' ∉ pre) (hfrac : '.' ∉ frac)
    (hfit : (pre ++ '.' :: frac).length ≤ 63) :
    trimText (pre ++ '.' :: frac)
      = .ok (String.mk (if frac.rdropWhile (fun c => c = '0') = [] then pre
          else pre ++ '.' :: frac.rdropWhile (fun c => c = '0'))) := by
  have hlt : pre.length < (pre ++ '.' :: frac).length := by simp
  obtain ⟨tail', ht⟩ := trimZeros_text pre frac (List.replicate (64 - (pre ++ '.' :: frac).length) NUL)
  have hfind : find ((pre ++ '.' :: frac) ++ List.replicate (64 - (pre ++ '.' :: frac).length) NUL)
      (pre ++ '.' :: frac).length '.' = .ok (some pre.length) := by
    have := findFrom_dot pre (frac ++ List.replicate (64 - (pre ++ '.' :: frac).length) NUL)
      (pre ++ '.' :: frac).length 0 hpre hlt
    simpa [find] using this
  simp only [trimText, trimStep, snprintfBuf_of_fits _ hfit, snprintfRet_of_fits _ hfit, hfind, ht]
  by_cases hk : frac.rdropWhile (fun c => c = '0') = []
  · have := trimDot_last pre '.' tail'
    simp only [hk, if_true] at this ⊢
    rw [this]
    exact mkString_text pre _
  · obtain ⟨f0, c, hfc⟩ : ∃ f0 c, frac.rdropWhile (fun c => c = '0') = f0 ++ [c] :=
      ⟨_, _, (List.dropLast_append_getLast hk).symm⟩
    have hcmem : c ∈ frac :=
      (List.rdropWhile_prefix (fun c => c = '0') frac).subset (by simp [hfc])
    have hc : c ≠ '.' := fun e => hfrac (e ▸ hcmem)
    have := trimDot_last (pre ++ '.' :: f0) c tail'
    simp only [hc, if_false] at this
    have e : pre ++ '.' :: (f0 ++ [c]) = (pre ++ '.' :: f0) ++ [c] := by simp
    have hne : ¬ (f0 ++ [c] = []) := by simp
    simp only [hfc, hne, if_false, e]
    rw [this]
    exact mkString_text _ _

/-- The specified trimming leaves a text without decimal point as it is. -/
theorem trimSpec_no_dot (r : List Char) (h : '.' ∉ r) : trimSpec r = r := by
  have : r.dropWhile (fun c => decide (c ≠ '.')) = [] := by
    rw [List.dropWhile_eq_nil_iff]
    intro x hx
    simpa using fun e : x = '.' => h (e ▸ hx)
  simp only [trimSpec, this]

/-- The specified trimming on a text with a decimal point. -/
theorem trimSpec_dot (pre frac : List Char) (hpre : '.' ∉ pre) :
    trimSpec (pre ++ '.' :: frac)
      = if frac.rdropWhile (fun c => c = '0') = [] then pre
        else pre ++ '.' :: frac.rdropWhile (fun c => c = '0') := by
  have hp : ∀ x ∈ pre, decide (x ≠ '.') = true := by
    intro x hx
    simpa using fun e : x = '.' => hpre (e ▸ hx)
  have h1 : (pre ++ '.' :: frac).dropWhile (fun c => decide (c ≠ '.')) = '.' :: frac := by
    rw [List.dropWhile_append_of_pos hp]
    simp [List.dropWhile]
  have h2 : (pre ++ '.' :: frac).takeWhile (fun c => decide (c ≠ '.')) = pre := by
    rw [List.takeWhile_append_of_pos hp]
    simp [List.takeWhile]
  simp only [trimSpec, h1, h2]

/-- The character of a digit value is a decimal digit. -/
theorem digitChar_isDigit (d : Nat) (h : d < 10) : (Nat.digitChar d).isDigit = true := by
  interval_cases d <;> rfl

/-- Digit generation only adds decimal digits. -/
theorem toDigitsCore_isDigit (fuel n : Nat) (ds : List Char)
    (hds : ∀ c ∈ ds, c.isDigit = true) :
    ∀ c ∈ Nat.toDigitsCore 10 fuel n ds, c.isDigit = true := by
  induction fuel generalizing n ds with
  | zero => simpa [Nat.toDigitsCore] using hds
  | succ fuel ih =>
    have hd : (Nat.digitChar (n % 10)).isDigit = true := digitChar_isDigit _ (Nat.mod_lt _ (by decide))
    have hcons : ∀ c ∈ Nat.digitChar (n % 10) :: ds, c.isDigit = true := by
      intro c hc
      rcases List.mem_cons.mp hc with e | e
      · exact e ▸ hd
      · exact hds c e
    simp only [Nat.toDigitsCore]
    split
    · exact hcons
    · exact ih _ _ hcons

/-- The decimal text of a natural number consists of decimal digits. -/
theorem toDigits_isDigit (n : Nat) : ∀ c ∈ Nat.toDigits 10 n, c.isDigit = true :=
  toDigitsCore_isDigit _ _ [] (by simp)

/-- A decimal digit is not the decimal point. -/
theorem isDigit_ne_dot (c : Char) (h : c.isDigit = true) : c ≠ '.' := by
  intro e
  subst e
  exact absurd h (by decide)

/-- A run of digits has no decimal point. -/
theorem dot_not_mem_of_digits (ds : List Char) (h : ∀ c ∈ ds, c.isDigit = true) : '.' ∉ ds :=
  fun hm => isDigit_ne_dot _ (h _ hm) rfl

/-- The sign has no decimal point. -/
theorem dot_not_mem_signChars (neg : Bool) : '.' ∉ signChars neg := by
  cases neg <;> simp [signChars]

/-- Padding with zeros adds no decimal point. -/
theorem dot_not_mem_padZeros (w : Nat) (ds : List Char) (h : '.' ∉ ds) :
    '.' ∉ padZeros w ds := by
  simp only [padZeros, List.mem_append, List.mem_replicate, not_or]
  exact ⟨fun hh => absurd hh.2 (by decide), h⟩

/-- A fixed-point rendering has no decimal point, or exactly one. -/
theorem formatFixed_shape (t : Double) (precision : Int) :
    '.' ∉ formatFixed t precision ∨
    ∃ pre frac, formatFixed t precision = pre ++ '.' :: frac ∧ '.' ∉ pre ∧ '.' ∉ frac := by
  cases t with
  | fin neg m e =>
    obtain ⟨p, n, hr⟩ : ∃ p n, formatFixed (.fin neg m e) precision
        = signChars neg ++ Nat.toDigits 10 (n / 10 ^ p) ++
          (if p = 0 then [] else '.' :: padZeros p (Nat.toDigits 10 (n % 10 ^ p))) :=
      ⟨_, _, rfl⟩
    have hpre : '.' ∉ signChars neg ++ Nat.toDigits 10 (n / 10 ^ p) := by
      simp only [List.mem_append, not_or]
      exact ⟨dot_not_mem_signChars neg, dot_not_mem_of_digits _ (toDigits_isDigit _)⟩
    rw [hr]
    by_cases hp : p = 0
    · left
      simpa [hp] using hpre
    · right
      refine ⟨_, padZeros p (Nat.toDigits 10 (n % 10 ^ p)), by simp [hp], hpre, ?_⟩
      exact dot_not_mem_padZeros _ _ (dot_not_mem_of_digits _ (toDigits_isDigit _))
  | inf neg =>
    left
    cases neg <;> simp [formatFixed, signChars]
  | nan neg =>
    left
    cases neg <;> simp [formatFixed, signChars]

/-- With trimming, `toStr` is the trimming step on the rendering. -/
theorem toStr_true_eq (t : Double) (precision : Int) :
    toStr t precision true = trimText (formatFixed t precision) := rfl

/-- Without trimming, `toStr` builds its result from the buffer at once. -/
theorem toStr_false_eq (t : Double) (precision : Int) :
    toStr t precision false
      = mkString (snprintfBuf (formatFixed t precision)) (snprintfRet (formatFixed t precision)) :=
  rfl


/-- What the removal of trailing zeros removes is a run of zeros. -/
theorem rdropWhile_zeros (l : List Char) :
    ∃ n, l = l.rdropWhile (fun c => c = '0') ++ List.replicate n '0' := by
  induction l using List.reverseRecOn with
  | nil => exact ⟨0, by simp⟩
  | append_singleton l c ih =>
    by_cases hc : c = '0'
    · subst hc
      obtain ⟨n, hn⟩ := ih
      refine ⟨n + 1, ?_⟩
      rw [List.rdropWhile_concat_pos _ _ _ (by simp), List.replicate_succ', ← List.append_assoc,
        ← hn]
    · exact ⟨0, by rw [List.rdropWhile_concat_neg _ _ _ (by simpa using hc)]; simp⟩

/-- The specified trimming returns a beginning of the text. -/
theorem trimSpec_prefix (r : List Char) : trimSpec r <+: r := by
  have hsplit := List.takeWhile_append_dropWhile (fun c => decide (c ≠ '.')) r
  cases hd : r.dropWhile (fun c => decide (c ≠ '.')) with
  | nil =>
    simp only [trimSpec, hd]
    exact List.prefix_refl r
  | cons x frac =>
    have hx : x = '.' := by
      have h1 := List.head_dropWhile_not (fun c => decide (c ≠ '.')) r
        (by rw [hd]; exact List.cons_ne_nil _ _)
      simp only [hd, List.head_cons] at h1
      simpa using h1
    subst hx
    rw [hd] at hsplit
    obtain ⟨n, hn⟩ := rdropWhile_zeros frac
    simp only [trimSpec, hd]
    split
    · exact ⟨_, hsplit⟩
    · refine ⟨List.replicate n '0', ?_⟩
      rw [List.append_assoc, List.cons_append, ← hn]
      exact hsplit

/-- The specified trimming keeps everything before the decimal point. -/
theorem takeWhile_prefix_trimSpec (r : List Char) :
    r.takeWhile (fun c => c ≠ '.') <+: trimSpec r := by
  cases hd : r.dropWhile (fun c => decide (c ≠ '.')) with
  | nil =>
    simp only [trimSpec, hd]
    exact List.takeWhile_prefix _
  | cons x frac =>
    simp only [trimSpec, hd]
    split
    · exact List.prefix_refl _
    · exact List.prefix_append _ _

/-! ## Lemmas on integral values -/

/-- Rounding an exact quotient gives the quotient. -/
theorem roundHalfEven_mul (n b : Nat) (hb : 0 < b) : roundHalfEven (n * b) b = n := by
  simp [roundHalfEven, Nat.mul_div_cancel _ hb, hb]

/-- An integral datum is its truncated magnitude. -/
theorem truncMag_mul (neg : Bool) (m : Nat) (e : Int) (h : IsIntegral (.fin neg m e) = true) :
    (0 ≤ e → truncMag m e = m * 2 ^ e.toNat) ∧
    (¬ 0 ≤ e → m = truncMag m e * 2 ^ (-e).toNat) := by
  constructor
  · intro he
    simp [truncMag, he]
  · intro he
    simp only [IsIntegral, he, if_false, decide_eq_true_eq] at h
    simp only [truncMag, he, if_false]
    exact (Nat.div_mul_cancel (Nat.dvd_of_mod_eq_zero h)).symm

/-- The rendering of an integral datum at precision 8: sign, digits, point, eight zeros. -/
theorem formatFixed_integral (neg : Bool) (m : Nat) (e : Int)
    (h : IsIntegral (.fin neg m e) = true) :
    formatFixed (.fin neg m e) 8
      = (signChars neg ++ Nat.toDigits 10 (truncMag m e)) ++ '.' :: List.replicate 8 '0' := by
  obtain ⟨h1, h2⟩ := truncMag_mul neg m e h
  have hn : roundHalfEven (if 0 ≤ e then m * 10 ^ 8 * 2 ^ e.toNat else m * 10 ^ 8)
      (if 0 ≤ e then 1 else 2 ^ (-e).toNat) = truncMag m e * 10 ^ 8 := by
    by_cases he : 0 ≤ e
    · simp only [he, if_true]
      rw [h1 he]
      have := roundHalfEven_mul (m * 10 ^ 8 * 2 ^ e.toNat) 1 (by decide)
      rw [Nat.mul_one] at this
      rw [this]
      ring
    · simp only [he, if_false]
      have hm := h2 he
      have : m * 10 ^ 8 = truncMag m e * 10 ^ 8 * 2 ^ (-e).toNat := by
        conv_lhs => rw [hm]
        ring
      rw [this]
      exact roundHalfEven_mul _ _ (Nat.pos_pow_of_pos _ (by decide))
  have hp : (if (8 : Int) < 0 then 6 else (8 : Int).toNat) = 8 := by decide
  simp only [formatFixed, hp, hn]
  have hd : truncMag m e * 10 ^ 8 / 10 ^ 8 = truncMag m e := Nat.mul_div_cancel _ (by decide)
  have hr : truncMag m e * 10 ^ 8 % 10 ^ 8 = 0 := Nat.mul_mod_left _ _
  rw [hd, hr]
  rfl

/-- A number below `10^e` has at most `e` digits. -/
theorem toDigits_length_le (n e : Nat) (he : 0 < e) (hn : n < 10 ^ e) :
    (Nat.toDigits 10 n).length ≤ e := by
  have := Nat.repr_length n e he hn
  simpa [Nat.repr] using this

/-- The trimmed rendering of an integral datum below `10^19`: sign and digits. -/
theorem toStr_integral (neg : Bool) (m : Nat) (e : Int)
    (h : IsIntegral (.fin neg m e) = true) (hN : truncMag m e < 10 ^ 19) :
    toStr (.fin neg m e) 8 true
      = .ok (String.mk (signChars neg ++ Nat.toDigits 10 (truncMag m e))) := by
  have hpre : '.' ∉ signChars neg ++ Nat.toDigits 10 (truncMag m e) := by
    simp only [List.mem_append, not_or]
    exact ⟨dot_not_mem_signChars neg, dot_not_mem_of_digits _ (toDigits_isDigit _)⟩
  have hz : '.' ∉ List.replicate 8 '0' := by decide
  have hlen : ((signChars neg ++ Nat.toDigits 10 (truncMag m e)) ++ '.' :: List.replicate 8 '0').length
      ≤ 63 := by
    have h1 := toDigits_length_le _ 19 (by decide) hN
    have h2 : (signChars neg).length ≤ 1 := by cases neg <;> simp [signChars]
    simp only [List.length_append, List.length_cons, List.length_replicate]
    omega
  rw [toStr_true_eq, formatFixed_integral neg m e h, trimText_dot _ _ hpre hz hlen]
  have : List.rdropWhile (fun c => decide (c = '0')) (List.replicate 8 '0') = [] := by decide
  rw [if_pos this]

/-- The sign distributes over a product of magnitudes. -/
theorem signed_mul (neg : Bool) (a b : Nat) : signed neg (a * b) = signed neg a * (b : Int) := by
  cases neg <;> simp [signed]

/-- A real node that passes `isInt64()` is integral, within the 64-bit range, and within
the range `asInt64()` asserts. -/
theorem isInt64_real_bounds (neg : Bool) (m : Nat) (e : Int)
    (h : isInt64 (realValue (.fin neg m e)) = true) :
    IsIntegral (.fin neg m e) = true ∧
    minInt64 ≤ signed neg (truncMag m e) ∧ signed neg (truncMag m e) ≤ maxInt64 ∧
    InRange (.fin neg m e) minInt64 (maxInt64 + 1) = true := by
  simp only [isInt64, Bool.and_eq_true] at h
  obtain ⟨⟨hge, hlt⟩, hint⟩ := h
  obtain ⟨h1, h2⟩ := truncMag_mul neg m e hint
  refine ⟨hint, ?_⟩
  by_cases he : 0 ≤ e
  · simp only [Double.geInt, Double.ltInt, he, if_true, decide_eq_true_eq] at hge hlt
    rw [← h1 he] at hge hlt
    refine ⟨hge, by omega, ?_⟩
    simp only [InRange, Double.geInt, Double.leInt, he, if_true, Bool.and_eq_true,
      decide_eq_true_eq]
    rw [← h1 he]
    exact ⟨hge, by omega⟩
  · simp only [Double.geInt, Double.ltInt, he, if_false, decide_eq_true_eq] at hge hlt
    have hP : (0 : Int) < ((2 ^ (-e).toNat : Nat) : Int) := by positivity
    have hm : signed neg m = signed neg (truncMag m e) * ((2 ^ (-e).toNat : Nat) : Int) := by
      conv_lhs => rw [h2 he]
      exact signed_mul _ _ _
    have hge' : minInt64 * ((2 ^ (-e).toNat : Nat) : Int) ≤ signed neg m := by
      simpa using hge
    have hlt' : signed neg m < (maxInt64 + 1) * ((2 ^ (-e).toNat : Nat) : Int) := by
      simpa using hlt
    rw [hm] at hge' hlt'
    have b1 : minInt64 ≤ signed neg (truncMag m e) := le_of_mul_le_mul_right hge' hP
    have b2 : signed neg (truncMag m e) < maxInt64 + 1 := lt_of_mul_lt_mul_right hlt' hP.le
    refine ⟨b1, by omega, ?_⟩
    simp only [InRange, Double.geInt, Double.leInt, he, if_false, Bool.and_eq_true,
      decide_eq_true_eq]
    exact ⟨hge, le_of_lt hlt⟩

/-- On a real node that passes `isInt64()`, `asInt64()` returns the truncated value. -/
theorem asInt64_real_of_isInt64 (neg : Bool) (m : Nat) (e : Int)
    (h : isInt64 (realValue (.fin neg m e)) = true) :
    asInt64 (realValue (.fin neg m e)) = .ok (signed neg (truncMag m e)) := by
  obtain ⟨_, _, hmax, hr⟩ := isInt64_real_bounds neg m e h
  simp only [asInt64, hr, if_true, Double.trunc?, hmax]

/-- The text of a signed integer, unless it is written as a negative zero. -/
theorem to_string_signed (neg : Bool) (n : Nat) (h : ¬ (neg = true ∧ n = 0)) :
    to_string (signed neg n) = String.mk (signChars neg ++ Nat.toDigits 10 n) := by
  cases neg with
  | false =>
    have : ¬ ((n : Int) < 0) := by omega
    simp [to_string, signed, signChars, this]
  | true =>
    have hn : 0 < n := Nat.pos_of_ne_zero (fun e => h ⟨rfl, e⟩)
    have : (-(n : Int) < 0) := by omega
    simp [to_string, signed, signChars, this]

/-! ## Claims -/

/-- Claim C1 (default on absent): for a JSON object with no member named `k`, reading `k`
leaves a string field equal to `""`, a bool field equal to `false`, an integer or floating
field equal to `0`, and a field of any other type equal to its `T()`, whatever the field
held before; the JSON object is returned unchanged. -/
theorem read_absent_gives_default (ms : List (String × Value)) (k : String)
    (h : lookup k ms = none) :
    (∀ prior : String, read stringField (objectValue ms) k prior = .ok (objectValue ms, "")) ∧
    (∀ prior : Bool, read boolField (objectValue ms) k prior = .ok (objectValue ms, false)) ∧
    (∀ (T : IntType) (prior : Int),
      read (intField T) (objectValue ms) k prior = .ok (objectValue ms, 0)) ∧
    (∀ (T : FloatType) (prior : Double),
      read (floatField T) (objectValue ms) k prior = .ok (objectValue ms, .fin false 0 0)) ∧
    (∀ (T : Type) (dflt : T) (toValue : T → Value) (prior : T),
      read (otherField dflt toValue) (objectValue ms) k prior = .ok (objectValue ms, dflt)) := by
  refine ⟨?_, ?_, ?_, ?_, ?_⟩ <;> intros <;>
    simp [read, isMember, h, JsonDefaultInit, stringField, boolField, intField, floatField,
      otherField]

/-- Claim C1 at the objects `{}` and `{"a": 1}`, name `"k"`. -/
theorem read_absent_gives_default_witness :
    lookup "k" [("a", intValue 1)] = none ∧
    (∀ prior : String,
      read stringField (objectValue []) "k" prior = .ok (objectValue [], "")) ∧
    (∀ (T : IntType) (prior : Int),
      read (intField T) (objectValue [("a", intValue 1)]) "k" prior
        = .ok (objectValue [("a", intValue 1)], 0)) :=
  ⟨rfl, (read_absent_gives_default [] "k" rfl).1,
    (read_absent_gives_default [("a", intValue 1)] "k" rfl).2.2.1⟩

/-- Claim C2 (coercion never raises) fails: reading the JSON integer `2^40` into a bool
field does not complete; `asInt()` throws `Json::LogicError`, which nothing catches. -/
theorem read_bool_from_2pow40_raises :
    read boolField (objectValue [("k", intValue 1099511627776)]) "k" false
      = .error .logicError := by rfl

/-- Claim C3 (integer round trip) fails for `uint64_t` above `2^63 - 1`: the value
`2^63 + 1` is written as an unsigned node and read back, through `asDouble()`, as `2^63`. -/
theorem roundtrip_uint64_above_int64_max :
    write (intField ⟨false, .w64⟩) nullValue "k" 9223372036854775809
      = .ok (objectValue [("k", uintValue 9223372036854775809)], 9223372036854775809) ∧
    read (intField ⟨false, .w64⟩) (objectValue [("k", uintValue 9223372036854775809)]) "k" 0
      = .ok (objectValue [("k", uintValue 9223372036854775809)], 9223372036854775808) := by
  constructor <;> rfl

/-- Claim C4 (string target, wrong shape) fails: reading a member that holds `true` into a
string field holding `"old"` leaves `"old"` in the field, not `""`. -/
theorem read_string_from_bool_keeps_prior :
    read stringField (objectValue [("k", booleanValue true)]) "k" "old"
      = .ok (objectValue [("k", booleanValue true)], "old") := by rfl

/-- Claim C6 (boolean from string): for every JSON string `s` under the member name, the
read completes and the bool field is `true` exactly when `s` is `"true"` or `"1"`. -/
theorem read_bool_from_string (ms : List (String × Value)) (k s : String) (prior : Bool)
    (hk : lookup k ms = some (stringValue s)) :
    ∃ b, read boolField (objectValue ms) k prior = .ok (objectValue ms, b) ∧
      (b = true ↔ (s = "true" ∨ s = "1")) := by
  refine ⟨decide (s = "true") || decide (s = "1"), ?_, by simp⟩
  simp [read, isMember, Value.get, hk, boolField, JsonInit_bool, isBool, isString, asString]

/-- Claim C6 at the string `"yes"`. -/
theorem read_bool_from_string_witness :
    lookup "k" [("k", stringValue "yes")] = some (stringValue "yes") ∧
    ∃ b, read boolField (objectValue [("k", stringValue "yes")]) "k" true
        = .ok (objectValue [("k", stringValue "yes")], b) ∧
      (b = true ↔ ("yes" = "true" ∨ "yes" = "1")) :=
  ⟨rfl, read_bool_from_string [("k", stringValue "yes")] "k" "yes" true rfl⟩

/-- Claim C7 (boolean from integer) fails: reading the JSON integer `4294967296` into a
bool field does not give `true`; `asInt()` throws because the value exceeds the `int` range. -/
theorem read_bool_from_4294967296_raises :
    read boolField (objectValue [("k", intValue 4294967296)]) "k" false
      = .error .logicError := by rfl

/-- Claim C8 (boolean from float) fails: reading the JSON float `0.5` into a bool field gives
`false`, because `asInt()` truncates it to `0` before the comparison. -/
theorem read_bool_from_half_is_false :
    read boolField (objectValue [("k", realValue (.fin false 1 (-1)))]) "k" true
      = .ok (objectValue [("k", realValue (.fin false 1 (-1)))], false) := by rfl

/-- Claim C9 (string from integer) fails for unsigned values above `2^63 - 1`: reading
`18446744073709551615` into a string field gives `"18446744073709551616"`, the rendering of
the nearest double. -/
theorem read_string_from_uint64_max :
    read stringField (objectValue [("k", uintValue 18446744073709551615)]) "k" ""
      = .ok (objectValue [("k", uintValue 18446744073709551615)], "18446744073709551616") := by
  rfl

/-- Claim C10 (string from string or null): whatever the field held, reading a member that
is a JSON string `s` sets the field to `s` itself, and reading a member that is null sets it
to `""`. -/
theorem read_string_from_string_or_null (ms : List (String × Value)) (k : String)
    (prior : String) :
    (∀ s, lookup k ms = some (stringValue s) →
      read stringField (objectValue ms) k prior = .ok (objectValue ms, s)) ∧
    (lookup k ms = some nullValue →
      read stringField (objectValue ms) k prior = .ok (objectValue ms, "")) := by
  constructor
  · intro s hk
    simp [read, isMember, Value.get, hk, stringField, JsonInit_string, isNull, isString, asString]
  · intro hk
    simp [read, isMember, Value.get, hk, stringField, JsonInit_string, isNull]

/-- Claim C10 at the string `" 42 "` and at a null member. -/
theorem read_string_from_string_or_null_witness :
    read stringField (objectValue [("k", stringValue " 42 ")]) "k" "old"
      = .ok (objectValue [("k", stringValue " 42 ")], " 42 ") ∧
    read stringField (objectValue [("k", nullValue)]) "k" "old"
      = .ok (objectValue [("k", nullValue)], "") :=
  ⟨(read_string_from_string_or_null [("k", stringValue " 42 ")] "k" "old").1 " 42 " rfl,
    (read_string_from_string_or_null [("k", nullValue)] "k" "old").2 rfl⟩

/-- Claim C11 (unrepresentable shape gives the default): for a member that is present,
whatever the field held, a bool field becomes `false` when the value is null, an array or an
object; an integer or floating field becomes `0` when the value is null, a bool, an array or
an object; and a field of any other type becomes its `T()` for every value. -/
theorem read_unrepresentable_gives_default (ms : List (String × Value)) (k : String)
    (v : Value) (hk : lookup k ms = some v) :
    ((v.isNull ∨ v.isArray ∨ v.isObject) →
      ∀ prior : Bool, read boolField (objectValue ms) k prior = .ok (objectValue ms, false)) ∧
    ((v.isNull ∨ v.isBool ∨ v.isArray ∨ v.isObject) →
      (∀ (T : IntType) (prior : Int),
        read (intField T) (objectValue ms) k prior = .ok (objectValue ms, 0)) ∧
      (∀ (T : FloatType) (prior : Double),
        read (floatField T) (objectValue ms) k prior = .ok (objectValue ms, .fin false 0 0))) ∧
    (∀ (T : Type) (dflt : T) (toValue : T → Value) (prior : T),
      read (otherField dflt toValue) (objectValue ms) k prior = .ok (objectValue ms, dflt)) := by
  refine ⟨?_, ?_, ?_⟩
  · intro hs prior
    cases v <;>
      simp_all [read, isMember, Value.get, boolField, JsonInit_bool, isNull, isArray, isObject,
        isBool, isString, isNumeric, isDouble]
  · intro hs
    constructor <;> intro T prior <;> cases v <;>
      simp_all [read, isMember, Value.get, intField, floatField, JsonInit_int, JsonInit_float,
        isNull, isArray, isObject, isBool, isString, isNumeric, isDouble]
  · intro T dflt toValue prior
    simp [read, isMember, Value.get, hk, otherField, JsonInit_other, JsonDefaultInit]

/-- Claim C11 at the objects `{"k": null}` and `{"k": true}`. -/
theorem read_unrepresentable_gives_default_witness :
    (∀ prior : Bool, read boolField (objectValue [("k", nullValue)]) "k" prior
      = .ok (objectValue [("k", nullValue)], false)) ∧
    (∀ (T : IntType) (prior : Int),
      read (intField T) (objectValue [("k", booleanValue true)]) "k" prior
        = .ok (objectValue [("k", booleanValue true)], 0)) :=
  ⟨(read_unrepresentable_gives_default [("k", nullValue)] "k" nullValue rfl).1 (Or.inl rfl),
    ((read_unrepresentable_gives_default [("k", booleanValue true)] "k" (booleanValue true)
      rfl).2.1 (Or.inr (Or.inl rfl))).1⟩

/-- Claim C12 (write frame): writing a field under `k` into a JSON object completes, leaves
the field as it was, and returns an object in which `k` is bound to the node built from the
field (a string node for a string, a bool node for a bool, an integer node for an integer),
while every other name is bound exactly as before: kept if it was a member, still absent if
it was not.  A member `k` that existed is overwritten. -/
theorem write_frame {T : Type} (F : FieldType T) (ms : List (String × Value)) (k : String)
    (ref : T) :
    (∃ ms', write F (objectValue ms) k ref = .ok (objectValue ms', ref) ∧
      lookup k ms' = some (F.toValue ref) ∧
      ∀ j, j ≠ k → lookup j ms' = lookup j ms) ∧
    (∀ s, stringField.toValue s = stringValue s) ∧
    (∀ b, boolField.toValue b = booleanValue b) ∧
    (∀ (I : IntType) (i : Int),
      (intField I).toValue i = intValue i ∨ (intField I).toValue i = uintValue i.toNat) := by
  refine ⟨⟨insertMember k (F.toValue ref) ms, by simp [write, Value.set],
    lookup_insertMember_self _ _ _, fun j hj => lookup_insertMember_other _ _ _ _ hj⟩,
    fun _ => rfl, fun _ => rfl, ?_⟩
  intro I i
  rcases I with ⟨s, w⟩
  cases s <;> cases w <;> simp [intField, IntType.toValue]

/-- Claim C12 at the object `{"k": 1, "z": null}`, overwriting `k` with the string `"v"`. -/
theorem write_frame_witness :
    ∃ ms', write stringField (objectValue [("k", intValue 1), ("z", nullValue)]) "k" "v"
        = .ok (objectValue ms', "v") ∧
      lookup "k" ms' = some (stringValue "v") ∧
      ∀ j, j ≠ "k" → lookup j ms' = lookup j [("k", intValue 1), ("z", nullValue)] :=
  (write_frame stringField [("k", intValue 1), ("z", nullValue)] "k" "v").1

/-- Claim C14 (deferred-document allocation): a deferred write of `(k, field)` on an empty
handle completes and leaves the handle holding the object whose only member is `k`, bound to
the node built from the field; a deferred read on that handle of any other name then
completes and sets the target field to the default of its type. -/
theorem writePtr_null_allocates {T U : Type} (F : FieldType T) (G : FieldType U) (k : String)
    (ref : T) :
    writePtr F none k ref = .ok (some (objectValue [(k, F.toValue ref)]), ref) ∧
    (∀ j, lookup j [(k, F.toValue ref)] = if j = k then some (F.toValue ref) else none) ∧
    ∀ (j : String) (prior : U), j ≠ k →
      readPtr G (some (objectValue [(k, F.toValue ref)])) j prior
        = .ok (some (objectValue [(k, F.toValue ref)]), G.dflt) := by
  refine ⟨rfl, ?_, ?_⟩
  · intro j
    by_cases h : j = k
    · simp [lookup, h]
    · simp [lookup, h, Ne.symm h]
  · intro j prior hj
    simp [readPtr, read, isMember, lookup, Ne.symm hj, JsonDefaultInit]

/-- Claim C14 at the binding `("k", 7)` of an `int` field, then reading `"other"` into a
string field. -/
theorem writePtr_null_allocates_witness :
    writePtr (intField ⟨true, .w32⟩) none "k" 7
      = .ok (some (objectValue [("k", intValue 7)]), 7) ∧
    readPtr stringField (some (objectValue [("k", intValue 7)])) "other" "old"
      = .ok (some (objectValue [("k", intValue 7)]), "") :=
  ⟨(writePtr_null_allocates (intField ⟨true, .w32⟩) stringField "k" 7).1,
    (writePtr_null_allocates (intField ⟨true, .w32⟩) stringField "k" 7).2.2 "other" "old"
      (by decide)⟩

/-- Claim C15 (the deferred adapter is a transparent wrapper): on a handle holding a document
`d`, the deferred read and the deferred write give the field value and the document that the
plain read and write give on `d`, and fail when they fail; the handle holds that document
afterwards, so a write keeps every member with another name; on an empty handle the deferred
read sets the field to the default of its type and leaves the handle empty. -/
theorem deferred_is_transparent {T : Type} (F : FieldType T) (d : Value) (k : String)
    (ref : T) :
    readPtr F (some d) k ref = (read F d k ref).map (fun p => (some p.1, p.2)) ∧
    writePtr F (some d) k ref = (write F d k ref).map (fun p => (some p.1, p.2)) ∧
    readPtr F none k ref = .ok (none, F.dflt) ∧
    (∀ ms, d = objectValue ms →
      (∃ r, readPtr F (some d) k ref = .ok (some d, r)) ∨
        (∃ f, readPtr F (some d) k ref = .error f)) ∧
    (∀ ms, d = objectValue ms →
      ∃ ms', writePtr F (some d) k ref = .ok (some (objectValue ms'), ref) ∧
        lookup k ms' = some (F.toValue ref) ∧ ∀ j, j ≠ k → lookup j ms' = lookup j ms) := by
  refine ⟨?_, ?_, rfl, ?_, ?_⟩
  · simp only [readPtr]
    cases h : read F d k ref with
    | error f => rfl
    | ok p => rfl
  · simp only [writePtr]
    cases h : write F d k ref with
    | error f => rfl
    | ok p => rfl
  · intro ms hd
    subst hd
    simp only [readPtr, read, isMember, Value.get]
    cases h1 : (lookup k ms).isSome with
    | false => exact Or.inl ⟨_, rfl⟩
    | true =>
      cases h2 : F.init ref ((lookup k ms).getD nullValue) with
      | error f => exact Or.inr ⟨f, by simp [h2]⟩
      | ok r => exact Or.inl ⟨r, by simp [h2]⟩
  · intro ms hd
    subst hd
    exact ⟨insertMember k (F.toValue ref) ms, by simp [writePtr, write, Value.set],
      lookup_insertMember_self _ _ _, fun j hj => lookup_insertMember_other _ _ _ _ hj⟩

/-- Claim C15 at a handle holding `{"a": 1}`. -/
theorem deferred_is_transparent_witness :
    ∃ ms', writePtr boolField (some (objectValue [("a", intValue 1)])) "k" true
        = .ok (some (objectValue ms'), true) ∧
      lookup "k" ms' = some (boolField.toValue true) ∧
      ∀ j, j ≠ "k" → lookup j ms' = lookup j [("a", intValue 1)] :=
  (deferred_is_transparent boolField (objectValue [("a", intValue 1)]) "k" true).2.2.2.2
    [("a", intValue 1)] rfl

/-- Claim C20 (round trip of string and bool fields): every string `s`, and every bool `b`,
written under `k` into a fresh JSON value and read back under `k` into a field of the same
type, is recovered exactly, whatever the target field held. -/
theorem roundtrip_string_bool (k : String) :
    (∀ s prior : String, ∃ obj, write stringField nullValue k s = .ok (obj, s) ∧
      read stringField obj k prior = .ok (obj, s)) ∧
    (∀ b prior : Bool, ∃ obj, write boolField nullValue k b = .ok (obj, b) ∧
      read boolField obj k prior = .ok (obj, b)) := by
  constructor
  · intro s prior
    refine ⟨objectValue [(k, stringValue s)], rfl, ?_⟩
    simp [read, isMember, Value.get, lookup, stringField, JsonInit_string, isNull, isString,
      asString]
  · intro b prior
    refine ⟨objectValue [(k, booleanValue b)], rfl, ?_⟩
    simp [read, isMember, Value.get, lookup, boolField, JsonInit_bool, isBool, asBool]

/-- The renderings the specification lists. -/
theorem toStr_examples :
    toStr (.fin false 7 (-1)) 8 true = .ok "3.5" ∧
    toStr (.fin false 4 0) 8 true = .ok "4" ∧
    toStr (.fin false 4 0) 8 false = .ok "4.00000000" ∧
    toStr (.fin true 9 (-2)) 2 true = .ok "-2.25" ∧
    toStr (.fin false 100 0) 0 true = .ok "100" := by
  refine ⟨?_, ?_, ?_, ?_, ?_⟩ <;> rfl

/-- Claim C16 (trim correctness): when the fixed-point rendering `r` of a value fits the
buffer, `toStr` with trimming returns `r` with the trailing `'0'` characters after the decimal
point removed, and the point too when nothing remains after it; the result is a prefix of `r`
that keeps everything before the decimal point, and is `r` itself when `r` has no decimal
point.  Without trimming `toStr` returns `r`. -/
theorem toStr_trim_correct (t : Double) (precision : Int)
    (hfit : (formatFixed t precision).length ≤ 63) :
    toStr t precision true = .ok (String.mk (trimSpec (formatFixed t precision))) ∧
    toStr t precision false = .ok (String.mk (formatFixed t precision)) ∧
    trimSpec (formatFixed t precision) <+: formatFixed t precision ∧
    (formatFixed t precision).takeWhile (fun c => c ≠ '.')
      <+: trimSpec (formatFixed t precision) ∧
    ('.' ∉ formatFixed t precision →
      trimSpec (formatFixed t precision) = formatFixed t precision) := by
  refine ⟨?_, ?_, trimSpec_prefix _, takeWhile_prefix_trimSpec _, trimSpec_no_dot _⟩
  · rw [toStr_true_eq]
    rcases formatFixed_shape t precision with h | ⟨pre, frac, hr, hpre, hfrac⟩
    · rw [trimText_no_dot _ h hfit, trimSpec_no_dot _ h]
    · rw [hr] at hfit ⊢
      rw [trimText_dot pre frac hpre hfrac hfit, trimSpec_dot pre frac hpre]
  · rw [toStr_false_eq, snprintfBuf_of_fits _ hfit, snprintfRet_of_fits _ hfit, mkString_text]

/-- Claim C16 at the value `3.5` with precision `8`, rendered `"3.50000000"`. -/
theorem toStr_trim_correct_witness :
    (formatFixed (.fin false 7 (-1)) 8).length ≤ 63 ∧
    toStr (.fin false 7 (-1)) 8 true
      = .ok (String.mk (trimSpec (formatFixed (.fin false 7 (-1)) 8))) ∧
    trimSpec (formatFixed (.fin false 7 (-1)) 8) = ['3', '.', '5'] :=
  ⟨by decide, (toStr_trim_correct (.fin false 7 (-1)) 8 (by decide)).1, by decide⟩

set_option maxRecDepth 100000 in
set_option exponentiation.threshold 1000 in
/-- Claim C17 (buffer safety) fails: for `1e300` at precision `8` the rendering has 310
characters, `snprintf` returns 310, and the search for the decimal point reads past the 64
bytes of the buffer; without trimming the result is built from 310 bytes of the buffer.  For
`1.0` at precision `100` the trimming loop starts by reading `buf[101]`. -/
theorem toStr_reads_past_buffer :
    toStr (.fin false 6724873095247260 944) 8 true = .error .outOfBounds ∧
    toStr (.fin false 6724873095247260 944) 8 false = .error .outOfBounds ∧
    toStr (.fin false 1 0) 100 true = .error .outOfBounds := by
  refine ⟨?_, ?_, ?_⟩ <;> rfl

/-- A text that ends with a run of digits ends with a digit. -/
theorem getLast?_digits_ne_dot (ds : List Char) (h : isDigits ds) (pre : List Char) :
    ∃ c, (pre ++ ds).getLast? = some c ∧ c.isDigit = true := by
  obtain ⟨hne, hd⟩ := h
  obtain ⟨l0, c, rfl⟩ : ∃ l0 c, ds = l0 ++ [c] :=
    ⟨_, _, (List.dropLast_append_getLast hne).symm⟩
  refine ⟨c, ?_, hd c (by simp)⟩
  rw [← List.append_assoc, List.getLast?_concat]

/-- Claim C18 as stated fails at negative zero: read into a string field it gives `"0"`,
while `toStr` with precision `8` and trimming gives `"-0"`. -/
theorem read_string_from_negative_zero :
    read stringField (objectValue [("k", realValue (.fin true 0 0))]) "k" ""
      = .ok (objectValue [("k", realValue (.fin true 0 0))], "0") ∧
    toStr (.fin true 0 0) 8 true = .ok "-0" := by
  constructor <;> rfl

/-- Claim C18, amended (string from float): for every JSON floating-point value `v` other
than negative zero, integral or not, reading it into a string field gives exactly what
`toStr v` gives with precision `8` and trimming, and fails when `toStr` fails. -/
theorem read_string_from_real (ms : List (String × Value)) (k : String) (d : Double)
    (prior : String) (hk : lookup k ms = some (realValue d)) (hnz : d.isNegZero = false) :
    read stringField (objectValue ms) k prior
      = (toStr d 8 true).map (fun s => (objectValue ms, s)) := by
  have hread : read stringField (objectValue ms) k prior
      = (JsonInit_string prior (realValue d)).map (fun s => (objectValue ms, s)) := by
    simp only [read, isMember, Value.get, hk, Option.isSome_some, Option.getD_some, stringField]
    cases JsonInit_string prior (realValue d) <;> rfl
  rw [hread]
  congr 1
  by_cases hi : isInt64 (realValue d) = true
  · cases d with
    | fin neg m e =>
      obtain ⟨hint, hlo, hhi, _⟩ := isInt64_real_bounds neg m e hi
      have hN : truncMag m e < 10 ^ 19 := by
        have : ((truncMag m e : Nat) : Int) ≤ 9223372036854775808 := by
          cases neg <;> simp [signed, minInt64, maxInt64] at hlo hhi <;> omega
        have h2 : truncMag m e ≤ 9223372036854775808 := by exact_mod_cast this
        have h3 : (9223372036854775808 : Nat) < 10 ^ 19 := by decide
        omega
      have hsign : ¬ (neg = true ∧ truncMag m e = 0) := by
        rintro ⟨hn, hz⟩
        subst hn
        obtain ⟨h1, h2⟩ := truncMag_mul true m e hint
        have hm : m = 0 := by
          by_cases he : 0 ≤ e
          · have := h1 he
            rw [hz] at this
            have hp : 0 < 2 ^ e.toNat := Nat.pos_pow_of_pos _ (by decide)
            rcases Nat.mul_eq_zero.mp this.symm with h | h
            · exact h
            · omega
          · have := h2 he
            rw [hz] at this
            simpa using this
        subst hm
        simp [Double.isNegZero] at hnz
      rw [toStr_integral neg m e hint hN, ← to_string_signed neg _ hsign]
      simp only [JsonInit_string, isNull, isString, isNumeric, isDouble, hi,
        asInt64_real_of_isInt64 neg m e hi]
      rfl
    | inf neg => cases neg <;> simp [isInt64, Double.geInt, Double.ltInt] at hi
    | nan neg => simp [isInt64, Double.geInt] at hi
  · simp [JsonInit_string, isNull, isString, isNumeric, isDouble, hi, asDouble]

/-- Claim C18, amended, at the values `3.5` and `3.0`. -/
theorem read_string_from_real_witness :
    read stringField (objectValue [("k", realValue (.fin false 7 (-1)))]) "k" "old"
      = (toStr (.fin false 7 (-1)) 8 true).map
          (fun s => (objectValue [("k", realValue (.fin false 7 (-1)))], s)) ∧
    read stringField (objectValue [("k", realValue (.fin false 3 0))]) "k" "old"
      = (toStr (.fin false 3 0) 8 true).map
          (fun s => (objectValue [("k", realValue (.fin false 3 0))], s)) ∧
    toStr (.fin false 7 (-1)) 8 true = .ok "3.5" ∧ toStr (.fin false 3 0) 8 true = .ok "3" :=
  ⟨read_string_from_real [("k", realValue (.fin false 7 (-1)))] "k" (.fin false 7 (-1)) "old"
      rfl rfl,
    read_string_from_real [("k", realValue (.fin false 3 0))] "k" (.fin false 3 0) "old"
      rfl rfl, rfl, rfl⟩

end jsoncpp_utils
